import Mathlib

/-!
# ArgoChat query-planning pipeline: a shallow embedding

This file embeds the core of the ArgoChat backend (LLM plan extraction,
plan sanitization against a fixed capability registry, fetch dispatch,
in-memory filter chain, similarity ranking, answer synthesis) and the
frontend request builders, and proves the specified properties about them.

The backend Python modules `backend/utils/queries.py` and
`backend/services/query.py` are not part of the sources; only their
documentation (`docs/backend/server.md`, the project README and module
docs) is. Definitions for those components are therefore modelled from
the specification's words, and are marked as such in their doc comments.
The frontend TypeScript (`frontend/src/pages/ChatMap.tsx`) is present and
is embedded directly.
-/

set_option maxHeartbeats 1000000

namespace ArgoChat

/-! ## JSON values

A minimal JSON value universe, used both for plan extraction
(`extract_json_from_text`) and for function-call arguments and registry
defaults. Arrays and objects are represented through a mutual inductive
so that structural recursion and induction stay elementary. Numbers are
integers (the model does not need fractional literals).
-/

mutual

inductive Json where
| str : String → Json
| num : Int → Json
| bool : Bool → Json
| null : Json
| arr : JsonList → Json
| obj : JsonObj → Json
deriving DecidableEq, Repr

inductive JsonList where
| nil : JsonList
| cons : Json → JsonList → JsonList
deriving DecidableEq, Repr

inductive JsonObj where
| nil : JsonObj
| cons : String → Json → JsonObj → JsonObj
deriving DecidableEq, Repr

end

/-- Convert a `JsonList` to an ordinary list of `Json` values. -/
def JsonList.toList : JsonList → List Json
| .nil => []
| .cons j js => j :: js.toList

/-- Convert a `JsonObj` to an association list. -/
def JsonObj.toList : JsonObj → List (String × Json)
| .nil => []
| .cons k v ms => (k, v) :: ms.toList

/-! ## Capability registry

Modelled from the spec: `backend/utils/queries.py` is absent from the
sources; §4.2 and §3 of the specification enumerate the registry content
(four fetch capabilities, four filter capabilities, argument schemas with
defaults). Argument schemas are modelled as the list of declared argument
names paired with their default values; the declared primitive types are
not needed by any property and are omitted.
-/

inductive Tag where
| fetch : Tag
| filter : Tag
deriving DecidableEq, Repr

/-- A capability registry entry: name, declared arguments with their
default values, and the fetch/filter tag. -/
structure CapabilityEntry where
  name : String
  args : List (String × Json)
  tag : Tag
deriving DecidableEq, Repr

/-- Modelled from the spec (§4.2): the fixed, process-wide capability
registry: four fetch capabilities and four in-memory filter
capabilities. Default argument values are not enumerated by the spec and
are chosen as neutral bounds; no property depends on their particular
values. -/
def registry : List CapabilityEntry :=
  [ ⟨"get_profiles_by_region",
      [("lat_min", .num (-90)), ("lat_max", .num 90),
       ("lon_min", .num (-180)), ("lon_max", .num 180)], .fetch⟩,
    ⟨"get_profiles_by_date_range",
      [("start_date", .num 0), ("end_date", .num 0)], .fetch⟩,
    ⟨"get_profile_by_id",
      [("profile_id", .num 0)], .fetch⟩,
    ⟨"get_profiles_by_temperature_range",
      [("temp_min", .num 0), ("temp_max", .num 0)], .fetch⟩,
    ⟨"filter_by_temperature_range",
      [("temp_min", .num 0), ("temp_max", .num 0)], .filter⟩,
    ⟨"filter_by_date_range",
      [("start_date", .num 0), ("end_date", .num 0)], .filter⟩,
    ⟨"filter_by_id",
      [("profile_id", .num 0)], .filter⟩,
    ⟨"filter_by_region",
      [("lat_min", .num (-90)), ("lat_max", .num 90),
       ("lon_min", .num (-180)), ("lon_max", .num 180)], .filter⟩ ]

/-- The names of the four fetch capabilities. -/
def fetchNames : List String :=
  ["get_profiles_by_region", "get_profiles_by_date_range",
   "get_profile_by_id", "get_profiles_by_temperature_range"]

/-- Modelled from the spec (§4.2): `resolve(name)` looks the name up in
the registry. -/
def resolve (name : String) : Option CapabilityEntry :=
  registry.find? (fun e => e.name == name)

/-! ## Function calls and the sanitizer -/

/-- A raw candidate call as recovered from model output: a name and an
argument mapping (association list). -/
structure RawCall where
  name : String
  arguments : List (String × Json)
deriving DecidableEq, Repr

/-- A sanitized function call: the resolved name, its registry tag, and
a complete argument mapping (every declared argument present). -/
structure FunctionCall where
  name : String
  tag : Tag
  args : List (String × Json)
deriving DecidableEq, Repr

/-- Modelled from the spec (§4.3 rule 2): fill every declared argument
with the supplied value when present, the registry default otherwise;
arguments not declared in the schema are dropped (the output ranges over
the declared schema only). -/
def fillArgs (entry : CapabilityEntry) (raw : RawCall) : List (String × Json) :=
  entry.args.map (fun p => (p.1, (List.lookup p.1 raw.arguments).getD p.2))

/-- Modelled from the spec (§4.3 rules 1–2): the calls surviving the
drop of unrecognized names, each with its arguments normalized against
the registry schema. -/
def survivors (calls : List RawCall) : List FunctionCall :=
  calls.filterMap (fun c =>
    (resolve c.name).map (fun e => ⟨e.name, e.tag, fillArgs e c⟩))

/-- Modelled from the spec (§4.3, `sanitize_function_calls` in
`backend/utils/queries.py`): drop unrecognized names, normalize
arguments, and enforce the ordering invariant — if the first surviving
call is not tagged fetch the plan is rejected wholesale; if nothing
survives the plan is empty. -/
def sanitize_function_calls (calls : List RawCall) : List FunctionCall :=
  match survivors calls with
  | [] => []
  | first :: rest => if first.tag = .fetch then first :: rest else []

/-! ### Registry facts -/

/-- In the registry, an entry is tagged fetch exactly when its name is
one of the four fetch capability names. -/
theorem registry_fetch_iff (e : CapabilityEntry) (he : e ∈ registry) :
    e.tag = .fetch ↔ e.name ∈ fetchNames := by
  fin_cases he <;> simp [fetchNames]

/-- Every resolved entry is a registry member. -/
theorem resolve_mem {name : String} {e : CapabilityEntry}
    (h : resolve name = some e) : e ∈ registry := by
  exact List.mem_of_find?_eq_some h

/-- Every surviving call carries the tag of the registry entry that its
name resolves to. -/
theorem survivors_sound {calls : List RawCall} {fc : FunctionCall}
    (h : fc ∈ survivors calls) :
    ∃ raw ∈ calls, ∃ e, resolve raw.name = some e ∧
      fc.name = e.name ∧ fc.tag = e.tag ∧ fc.args = fillArgs e raw := by
  simp only [survivors, List.mem_filterMap] at h
  obtain ⟨raw, hraw, hmap⟩ := h
  rw [Option.map_eq_some'] at hmap
  obtain ⟨e, hres, hfc⟩ := hmap
  exact ⟨raw, hraw, e, hres, by rw [← hfc], by rw [← hfc], by rw [← hfc]⟩

/-- The sanitized plan is a subset of the surviving calls. -/
theorem sanitize_subset_survivors {calls : List RawCall} {fc : FunctionCall}
    (h : fc ∈ sanitize_function_calls calls) : fc ∈ survivors calls := by
  unfold sanitize_function_calls at h
  split at h
  · exact absurd h (List.not_mem_nil fc)
  · next first rest hs =>
      split at h
      · rw [hs]; exact h
      · exact absurd h (List.not_mem_nil fc)

/-- The keys of a filled argument list are exactly the declared keys. -/
theorem fillArgs_keys (entry : CapabilityEntry) (raw : RawCall) :
    (fillArgs entry raw).map Prod.fst = entry.args.map Prod.fst := by
  unfold fillArgs
  induction entry.args with
  | nil => rfl
  | cons p ps ih => simp [ih]

/-- Every declared argument appears in the filled list, with the
supplied value when present and the registry default otherwise. -/
theorem fillArgs_mem (entry : CapabilityEntry) (raw : RawCall)
    {n : String} {d : Json} (h : (n, d) ∈ entry.args) :
    (n, (List.lookup n raw.arguments).getD d) ∈ fillArgs entry raw := by
  unfold fillArgs
  exact List.mem_map_of_mem (fun p => (p.1, (List.lookup p.1 raw.arguments).getD p.2)) h

/-- C1: for every candidate call list, if the first call surviving the
drop of unrecognized names is not one of the four fetch capabilities,
sanitization yields an empty Plan — no call of the list is retained. -/
theorem sanitize_rejects_nonfetch_first (calls : List RawCall)
    (first : FunctionCall) (rest : List FunctionCall)
    (hs : survivors calls = first :: rest)
    (hnot : first.name ∉ fetchNames) :
    sanitize_function_calls calls = [] := by
  have hmem : first ∈ survivors calls := by
    rw [hs]; exact List.mem_cons_self _ _
  obtain ⟨raw, _, e, hres, hname, htag, _⟩ := survivors_sound hmem
  have he : e ∈ registry := resolve_mem hres
  have hne : first.tag ≠ Tag.fetch := by
    intro hft
    rw [htag] at hft
    have := (registry_fetch_iff e he).mpr
    have hmemn : e.name ∈ fetchNames := (registry_fetch_iff e he).mp hft
    rw [← hname] at hmemn
    exact hnot hmemn
  unfold sanitize_function_calls
  rw [hs]
  simp [hne]

/-- Witness for C1 at the concrete plan `[filter_by_id]`. -/
theorem sanitize_rejects_nonfetch_first_witness :
    survivors [⟨"filter_by_id", []⟩] =
      [⟨"filter_by_id", Tag.filter, [("profile_id", Json.num 0)]⟩] ∧
    "filter_by_id" ∉ fetchNames ∧
    sanitize_function_calls [⟨"filter_by_id", []⟩] = [] :=
  ⟨by decide, by decide,
    sanitize_rejects_nonfetch_first [⟨"filter_by_id", []⟩]
      ⟨"filter_by_id", Tag.filter, [("profile_id", Json.num 0)]⟩ []
      (by decide) (by decide)⟩

/-- C7: every call surviving sanitization has exactly the declared
argument keys (undeclared supplied arguments are dropped), and each
declared argument holds the supplied value when present and the registry
default otherwise; this normalization is total, never a failure. -/
theorem sanitize_fills_defaults_drops_undeclared
    (calls : List RawCall) (fc : FunctionCall)
    (h : fc ∈ sanitize_function_calls calls) :
    ∃ raw ∈ calls, ∃ e, resolve raw.name = some e ∧
      fc.args.map Prod.fst = e.args.map Prod.fst ∧
      ∀ n d, (n, d) ∈ e.args →
        (n, (List.lookup n raw.arguments).getD d) ∈ fc.args := by
  obtain ⟨raw, hraw, e, hres, _, _, hargs⟩ :=
    survivors_sound (sanitize_subset_survivors h)
  refine ⟨raw, hraw, e, hres, ?_, ?_⟩
  · rw [hargs]; exact fillArgs_keys e raw
  · intro n d hnd
    rw [hargs]
    exact fillArgs_mem e raw hnd

/-- Witness for C7 at a concrete call supplying one declared and one
undeclared argument. -/
theorem sanitize_fills_defaults_drops_undeclared_witness :
    (⟨"get_profiles_by_date_range", Tag.fetch,
        [("start_date", Json.num 5), ("end_date", Json.num 0)]⟩ : FunctionCall) ∈
      sanitize_function_calls
        [⟨"get_profiles_by_date_range", [("start_date", Json.num 5), ("bogus", Json.num 1)]⟩] ∧
    (∃ raw ∈ [(⟨"get_profiles_by_date_range",
          [("start_date", Json.num 5), ("bogus", Json.num 1)]⟩ : RawCall)],
      ∃ e, resolve raw.name = some e ∧
        [("start_date", Json.num 5), ("end_date", Json.num 0)].map Prod.fst =
          e.args.map Prod.fst ∧
        ∀ n d, (n, d) ∈ e.args →
          (n, (List.lookup n raw.arguments).getD d) ∈
            [("start_date", Json.num 5), ("end_date", Json.num 0)]) :=
  ⟨by decide,
    sanitize_fills_defaults_drops_undeclared
      [⟨"get_profiles_by_date_range", [("start_date", Json.num 5), ("bogus", Json.num 1)]⟩]
      ⟨"get_profiles_by_date_range", Tag.fetch,
        [("start_date", Json.num 5), ("end_date", Json.num 0)]⟩
      (by decide)⟩

/-! ## Records and the in-memory filter chain

Modelled from the spec (§3, §4.5): a `Record` is a float profile with
identity, platform, timezone-normalized timestamp, position and parallel
measurement series possibly holding missing markers. Coordinates,
timestamps and measurements are modelled over `Int` (the embedding does
not model floating point; no proved property depends on the numeric
granularity). Each in-memory filter is a pure, stable filter of the
record sequence by a predicate over the inspected attributes.
-/

structure Record where
  id : Int
  platform : String
  timestamp : Int
  lat : Int
  lon : Int
  pres : List (Option Int)
  temp : List (Option Int)
  psal : List (Option Int)
deriving DecidableEq, Repr

/-- Modelled from the spec: keep records whose temperature series has a
present value inside the inclusive range. -/
def filter_by_temperature_range (tmin tmax : Int) (rs : List Record) : List Record :=
  rs.filter (fun r => r.temp.any (fun t =>
    match t with
    | some v => decide (tmin ≤ v ∧ v ≤ tmax)
    | none => false))

/-- Modelled from the spec: keep records whose timestamp lies in the
inclusive date range. -/
def filter_by_date_range (dstart dend : Int) (rs : List Record) : List Record :=
  rs.filter (fun r => decide (dstart ≤ r.timestamp ∧ r.timestamp ≤ dend))

/-- Modelled from the spec: keep records with the given profile id. -/
def filter_by_id (pid : Int) (rs : List Record) : List Record :=
  rs.filter (fun r => r.id == pid)

/-- Modelled from the spec: keep records whose position lies in the
latitude/longitude box. -/
def filter_by_region (latmin latmax lonmin lonmax : Int) (rs : List Record) : List Record :=
  rs.filter (fun r => decide (latmin ≤ r.lat ∧ r.lat ≤ latmax ∧
    lonmin ≤ r.lon ∧ r.lon ≤ lonmax))

/-- Read an integer argument of a sanitized call, defaulting to 0. -/
def argInt (fc : FunctionCall) (n : String) : Int :=
  match List.lookup n fc.args with
  | some (Json.num i) => i
  | _ => 0

/-- Modelled from the spec (§4.5): dispatch one filter call over the
current record sequence; a capability the chain cannot interpret is a
no-op (identity), never a hard error. -/
def applyFilter (fc : FunctionCall) (rs : List Record) : List Record :=
  if fc.name = "filter_by_temperature_range" then
    filter_by_temperature_range (argInt fc "temp_min") (argInt fc "temp_max") rs
  else if fc.name = "filter_by_date_range" then
    filter_by_date_range (argInt fc "start_date") (argInt fc "end_date") rs
  else if fc.name = "filter_by_id" then
    filter_by_id (argInt fc "profile_id") rs
  else if fc.name = "filter_by_region" then
    filter_by_region (argInt fc "lat_min") (argInt fc "lat_max")
      (argInt fc "lon_min") (argInt fc "lon_max") rs
  else rs

/-- Modelled from the spec (§4.5): run the plan's remaining calls in
order; if the sequence becomes empty the remaining filters are skipped
(short-circuit). -/
def runFilters : List FunctionCall → List Record → List Record
  | _, [] => []
  | [], rs => rs
  | c :: cs, rs => runFilters cs (applyFilter c rs)

/-- Each single filter application yields a sublist of its input. -/
theorem applyFilter_sublist (fc : FunctionCall) (rs : List Record) :
    List.Sublist (applyFilter fc rs) rs := by
  unfold applyFilter
  split_ifs <;>
    first
      | exact List.filter_sublist rs
      | exact List.Sublist.refl rs

/-- The whole filter chain yields a sublist of its input. -/
theorem runFilters_sublist (ps : List FunctionCall) (rs : List Record) :
    List.Sublist (runFilters ps rs) rs := by
  induction ps generalizing rs with
  | nil => cases rs <;> simp [runFilters]
  | cons c cs ih =>
      cases rs with
      | nil => simp [runFilters]
      | cons r rs' =>
          exact (ih (applyFilter c (r :: rs'))).trans
            (applyFilter_sublist c (r :: rs'))

/-- C2: the Filter Chain output is a subsequence of the Fetch
Dispatcher output, both as records and as the id sequence in the same
relative order — filters never introduce, duplicate, or reorder
records. -/
theorem filter_chain_subsequence (plan : List FunctionCall) (fetched : List Record) :
    List.Sublist (runFilters plan fetched) fetched ∧
    List.Sublist ((runFilters plan fetched).map Record.id) (fetched.map Record.id) :=
  ⟨runFilters_sublist plan fetched,
    (runFilters_sublist plan fetched).map Record.id⟩

/-- Filtering twice by one predicate equals filtering once. -/
theorem filter_self_idem {α : Type} (p : α → Bool) (l : List α) :
    (l.filter p).filter p = l.filter p := by
  induction l with
  | nil => rfl
  | cons a l ih =>
      by_cases h : p a <;> simp [List.filter_cons, h, ih]

/-- C9: every in-memory filter capability is idempotent — applying it
twice with the same arguments equals applying it once. -/
theorem filter_idempotent (fc : FunctionCall) (rs : List Record) :
    applyFilter fc (applyFilter fc rs) = applyFilter fc rs := by
  unfold applyFilter
  split_ifs <;>
    simp [filter_by_temperature_range, filter_by_date_range,
      filter_by_id, filter_by_region, filter_self_idem]

/-! ## Similarity ranker

Modelled from the spec (§4.6, `vector_search` in
`backend/utils/queries.py`): embed a projection of each candidate record
and the question, score each candidate by similarity, and return the
top-N candidates ordered by descending similarity, ties broken by
original order (stable). The embedding/similarity computation is an
external collaborator; it enters the model as a scoring function from
records to rational similarity scores.
-/

/-- The fixed top-N bound for ranking (`n_results=5`). -/
def topN : Nat := 5

/-- Descending-score order on scored records. -/
def scoreGe (a b : Record × ℚ) : Prop := b.2 ≤ a.2

instance : DecidableRel scoreGe :=
  fun a b => inferInstanceAs (Decidable (b.2 ≤ a.2))

instance : IsTotal (Record × ℚ) scoreGe := ⟨fun a b => le_total b.2 a.2⟩

instance : IsTrans (Record × ℚ) scoreGe :=
  ⟨fun _ _ _ hab hbc => le_trans hbc hab⟩

/-- Modelled from the spec (§4.6): score every candidate, sort stably by
descending similarity, and truncate to the top-N bound. -/
def vector_search (score : Record → ℚ) (docs : List Record) : List (Record × ℚ) :=
  (List.insertionSort scoreGe (docs.map (fun r => (r, score r)))).take topN

/-- C4: for every non-empty candidate sequence, the ranker's result has
length at most the fixed top-N bound, every returned record's id occurs
in the candidate sequence, and similarity scores are non-increasing
along the returned order. -/
theorem vector_search_spec (score : Record → ℚ) (docs : List Record)
    (_hne : docs ≠ []) :
    (vector_search score docs).length ≤ topN ∧
    (∀ p ∈ vector_search score docs, p.1.id ∈ docs.map Record.id) ∧
    List.Pairwise (fun a b : Record × ℚ => b.2 ≤ a.2) (vector_search score docs) := by
  refine ⟨?_, ?_, ?_⟩
  · simp only [vector_search, List.length_take]
    exact min_le_left _ _
  · intro p hp
    have hp' : p ∈ List.insertionSort scoreGe (docs.map (fun r => (r, score r))) :=
      List.mem_of_mem_take hp
    rw [List.mem_insertionSort] at hp'
    obtain ⟨r, hr, hpr⟩ := List.mem_map.mp hp'
    rw [← hpr]
    exact List.mem_map_of_mem Record.id hr
  · have hsorted : List.Sorted scoreGe
        (List.insertionSort scoreGe (docs.map (fun r => (r, score r)))) :=
      List.sorted_insertionSort scoreGe _
    exact List.Pairwise.sublist (List.take_sublist _ _) hsorted

/-- Witness for C4 at a concrete two-record candidate set. -/
theorem vector_search_spec_witness :
    ([⟨1, "a", 0, 0, 0, [], [], []⟩, ⟨2, "b", 0, 0, 0, [], [], []⟩] : List Record) ≠ [] ∧
    ((vector_search (fun r => (r.id : ℚ))
        [⟨1, "a", 0, 0, 0, [], [], []⟩, ⟨2, "b", 0, 0, 0, [], [], []⟩]).length ≤ topN ∧
      (∀ p ∈ vector_search (fun r => (r.id : ℚ))
          [⟨1, "a", 0, 0, 0, [], [], []⟩, ⟨2, "b", 0, 0, 0, [], [], []⟩],
        p.1.id ∈ ([⟨1, "a", 0, 0, 0, [], [], []⟩,
          ⟨2, "b", 0, 0, 0, [], [], []⟩] : List Record).map Record.id) ∧
      List.Pairwise (fun a b : Record × ℚ => b.2 ≤ a.2)
        (vector_search (fun r => (r.id : ℚ))
          [⟨1, "a", 0, 0, 0, [], [], []⟩, ⟨2, "b", 0, 0, 0, [], [], []⟩])) :=
  ⟨by decide,
    vector_search_spec (fun r => (r.id : ℚ))
      [⟨1, "a", 0, 0, 0, [], [], []⟩, ⟨2, "b", 0, 0, 0, [], [], []⟩] (by decide)⟩

/-! ## The query pipeline

Modelled from the spec (§2 control flow, §4.7, §7 and
`backend/services/query.py`): sanitize the candidate plan, dispatch the
first call against the structured store, run the remaining calls through
the filter chain, and — only when records survive — rank and summarize.
The external collaborators (structured store, similarity ranker over the
vector index, language-model synthesizer) are injected dependencies. The
pipeline additionally returns the list of stages it invoked, so that
non-invocation of the ranker and synthesizer is a statement about the
returned trace.
-/

inductive Stage where
| fetch : Stage
| rank : Stage
| synth : Stage
deriving DecidableEq, Repr

inductive QueryResult where
| answer : String → QueryResult
| message : String → QueryResult
| error : String → QueryResult
deriving DecidableEq, Repr

/-- The fixed no-data terminal message (§4.7). -/
def noDataMsg : String := "No data found for this query."

/-- Modelled from the spec (`services/query.py` flow steps 3–6): the
orchestrated pipeline over injected collaborators. A failing ranker
(`RankingError`) falls back to the unranked filter output capped at
`topN` (§7) instead of failing the request. -/
def query_service (store : FunctionCall → List Record)
    (ranker : String → List Record → Except Unit (List (Record × ℚ)))
    (synth : String → List Record → String)
    (calls : List RawCall) (q : String) : QueryResult × List Stage :=
  match sanitize_function_calls calls with
  | [] => (.message noDataMsg, [])
  | first :: rest =>
      if runFilters rest (store first) = [] then (.message noDataMsg, [.fetch])
      else
        match ranker q (runFilters rest (store first)) with
        | .ok ranked =>
            (.answer (synth q (ranked.map Prod.fst)), [.fetch, .rank, .synth])
        | .error _ =>
            (.answer (synth q ((runFilters rest (store first)).take topN)),
              [.fetch, .rank, .synth])

/-- The filter chain on an empty fetch result is empty. -/
theorem runFilters_nil (ps : List FunctionCall) : runFilters ps [] = [] := by
  cases ps <;> rfl

/-- Unfolding of the pipeline on a sanitized non-empty plan. -/
theorem query_service_cons (store : FunctionCall → List Record)
    (ranker : String → List Record → Except Unit (List (Record × ℚ)))
    (synth : String → List Record → String)
    (calls : List RawCall) (q : String)
    (first : FunctionCall) (rest : List FunctionCall)
    (hs : sanitize_function_calls calls = first :: rest) :
    query_service store ranker synth calls q =
      if runFilters rest (store first) = [] then (.message noDataMsg, [.fetch])
      else
        match ranker q (runFilters rest (store first)) with
        | .ok ranked =>
            (.answer (synth q (ranked.map Prod.fst)), [.fetch, .rank, .synth])
        | .error _ =>
            (.answer (synth q ((runFilters rest (store first)).take topN)),
              [.fetch, .rank, .synth]) := by
  unfold query_service
  rw [hs]

/-- C3: whenever the fetch call or the filter chain produces an empty
record set, the pipeline returns the fixed no-data message and neither
the similarity ranker nor the answer synthesizer is invoked. -/
theorem pipeline_no_data_short_circuit
    (store : FunctionCall → List Record)
    (ranker : String → List Record → Except Unit (List (Record × ℚ)))
    (synth : String → List Record → String)
    (calls : List RawCall) (q : String)
    (first : FunctionCall) (rest : List FunctionCall)
    (hs : sanitize_function_calls calls = first :: rest)
    (hempty : store first = [] ∨ runFilters rest (store first) = []) :
    query_service store ranker synth calls q = (.message noDataMsg, [Stage.fetch]) ∧
    Stage.rank ∉ (query_service store ranker synth calls q).2 ∧
    Stage.synth ∉ (query_service store ranker synth calls q).2 := by
  have hf : runFilters rest (store first) = [] := by
    rcases hempty with h | h
    · rw [h]; exact runFilters_nil rest
    · exact h
  have heq : query_service store ranker synth calls q =
      (.message noDataMsg, [Stage.fetch]) := by
    unfold query_service
    rw [hs]
    simp [hf]
  refine ⟨heq, ?_, ?_⟩ <;> rw [heq] <;> decide

/-- Witness for C3: an empty store answer on a sanitized one-call plan. -/
theorem pipeline_no_data_short_circuit_witness :
    query_service (fun _ => []) (fun _ _ => .error ()) (fun _ _ => "")
        [⟨"get_profile_by_id", []⟩] "q" = (.message noDataMsg, [Stage.fetch]) ∧
    Stage.rank ∉ (query_service (fun _ => []) (fun _ _ => .error ()) (fun _ _ => "")
        [⟨"get_profile_by_id", []⟩] "q").2 ∧
    Stage.synth ∉ (query_service (fun _ => []) (fun _ _ => .error ()) (fun _ _ => "")
        [⟨"get_profile_by_id", []⟩] "q").2 :=
  pipeline_no_data_short_circuit (fun _ => []) (fun _ _ => .error ()) (fun _ _ => "")
    [⟨"get_profile_by_id", []⟩] "q"
    ⟨"get_profile_by_id", Tag.fetch, [("profile_id", Json.num 0)]⟩ []
    (by decide) (Or.inl rfl)

/-- C6: when the ranking step fails while the filter-chain output is
non-empty, the pipeline still returns an answer built from the unranked
filter-chain output capped at `topN`, rather than failing the request. -/
theorem pipeline_ranker_failure_fallback
    (store : FunctionCall → List Record)
    (ranker : String → List Record → Except Unit (List (Record × ℚ)))
    (synth : String → List Record → String)
    (calls : List RawCall) (q : String)
    (first : FunctionCall) (rest : List FunctionCall) (e : Unit)
    (hs : sanitize_function_calls calls = first :: rest)
    (hne : runFilters rest (store first) ≠ [])
    (herr : ranker q (runFilters rest (store first)) = .error e) :
    query_service store ranker synth calls q =
      (.answer (synth q ((runFilters rest (store first)).take topN)),
        [Stage.fetch, Stage.rank, Stage.synth]) := by
  rw [query_service_cons store ranker synth calls q first rest hs,
    if_neg hne, herr]

/-- Witness for C6: a concretely failing ranker over one fetched record. -/
theorem pipeline_ranker_failure_fallback_witness :
    query_service (fun _ => [⟨1, "a", 0, 0, 0, [], [], []⟩])
        (fun _ _ => .error ()) (fun _ rs => toString rs.length)
        [⟨"get_profile_by_id", []⟩] "q" =
      (.answer (toString ((([⟨1, "a", 0, 0, 0, [], [], []⟩] : List Record)).take topN).length),
        [Stage.fetch, Stage.rank, Stage.synth]) :=
  pipeline_ranker_failure_fallback (fun _ => [⟨1, "a", 0, 0, 0, [], [], []⟩])
    (fun _ _ => .error ()) (fun _ rs => toString rs.length)
    [⟨"get_profile_by_id", []⟩] "q"
    ⟨"get_profile_by_id", Tag.fetch, [("profile_id", Json.num 0)]⟩ [] ()
    (by decide) (by decide) rfl

/-! ## Read-only raw-SQL helper

Modelled from the spec (`custom_query` in `backend/utils/queries.py`,
documented as "Ensures `SELECT` only, executes and returns mappings"):
the helper forwards a statement to the structured store only when it is
a SELECT, and refuses every other statement. The store's general
executor is an injected collaborator; its contract (§6: the store
executes the four read operations and SELECTs read-only) enters as the
hypothesis that executing a SELECT leaves the store unchanged.
-/

/-- The structured store's state. -/
structure Store where
  rows : List Record
deriving DecidableEq, Repr

/-- Modelled from the spec: the SELECT-only guard on raw query text. -/
def isSelect (sql : String) : Bool :=
  (sql.trim.toUpper).startsWith "SELECT"

/-- The refusal message for non-SELECT statements. -/
def selectRefusedMsg : String := "Only SELECT statements are allowed."

/-- Modelled from the spec: `custom_query(sql)` executes the statement
against the store only when it is a SELECT and refuses every other
statement. -/
def custom_query (exec : String → Store → Store × List Record)
    (st : Store) (sql : String) : Except String (List Record) × Store :=
  if isSelect sql then
    (.ok (exec sql st).2, (exec sql st).1)
  else
    (.error selectRefusedMsg, st)

/-- C10: provided the store executes SELECT statements read-only (its
§6 collaborator contract), `custom_query` never modifies the store on
any input, and refuses every non-SELECT statement outright. -/
theorem custom_query_select_only
    (exec : String → Store → Store × List Record)
    (hread : ∀ sql st, isSelect sql = true → (exec sql st).1 = st)
    (st : Store) (sql : String) :
    (custom_query exec st sql).2 = st ∧
    (isSelect sql = false →
      custom_query exec st sql = (.error selectRefusedMsg, st)) := by
  unfold custom_query
  by_cases h : isSelect sql
  · simp [h, hread sql st h]
  · simp [h]

/-- Witness for C10 at the concrete statement `DROP TABLE argo_data`. -/
theorem custom_query_select_only_witness :
    (custom_query (fun _ st => (st, st.rows)) ⟨[]⟩ "DROP TABLE argo_data").2 = ⟨[]⟩ ∧
    (isSelect "DROP TABLE argo_data" = false →
      custom_query (fun _ st => (st, st.rows)) ⟨[]⟩ "DROP TABLE argo_data" =
        (.error selectRefusedMsg, ⟨[]⟩)) :=
  custom_query_select_only (fun _ st => (st, st.rows))
    (fun _ _ _ => rfl) ⟨[]⟩ "DROP TABLE argo_data"

/-! ## Frontend request builders

These are embedded from the sources (`frontend/src/pages/ChatMap.tsx`):
`LandingPage.handleSend` appends the selected region's coordinates to
the prompt text before posting `{ user_prompt }`; the `ChatMap`
component's `handleSendMessage` instead posts `{ user_prompt, location }`
with the region hint in the separate `location` field. The backend's
documented request model (`backend/routers/query.py`) carries only
`user_prompt`. Coordinates are modelled over `Int`; the builders are the
pure payload construction of the two handlers.
-/

/-- The region shape of `LandingPage` (lat/lon bounds). -/
structure RegionSel where
  lat_min : Int
  lat_max : Int
  lon_min : Int
  lon_max : Int
deriving DecidableEq, Repr

/-- The region shape of `ChatMap` (top-left/bottom-right corners). -/
structure BoundsSel where
  tl_lat : Int
  tl_lng : Int
  br_lat : Int
  br_lng : Int
deriving DecidableEq, Repr

/-- The POST body sent to `/api/query`. -/
structure QueryPayload where
  user_prompt : String
  location : Option String
deriving DecidableEq, Repr

/-- `LandingPage.handleSend` (ChatMap.tsx lines 353–370): the region
hint, when present, is appended verbatim to the prompt text; the payload
has no separate location field. -/
def handleSend_payload (inputText : String) (selectedRegion : Option RegionSel) :
    QueryPayload :=
  { user_prompt :=
      match selectedRegion with
      | some r =>
          inputText ++ "\nCoordinates: lat_min=" ++ toString r.lat_min ++
            ", lat_max=" ++ toString r.lat_max ++
            ", lon_min=" ++ toString r.lon_min ++
            ", lon_max=" ++ toString r.lon_max
      | none => inputText
    location := none }

/-- `ChatMap.handleSendMessage` (ChatMap.tsx lines 128–146): the prompt
text is sent unchanged and the region hint travels in a separate
`location` field of the payload. -/
def handleSendMessage_payload (input : String) (tag : Option BoundsSel) :
    QueryPayload :=
  { user_prompt := input
    location := tag.map (fun b =>
      "TopLeft(" ++ toString b.tl_lat ++ "," ++ toString b.tl_lng ++
        "), BottomRight(" ++ toString b.br_lat ++ "," ++ toString b.br_lng ++ ")") }

/-- C8: at a concrete request with a region hint, `ChatMap`'s
`handleSendMessage` sends the hint as a separate `location` payload
field and leaves the prompt text without it — contradicting the claim
that every request appends the hint verbatim to the prompt and never
passes it outside the prompt text; `LandingPage.handleSend`, by
contrast, conforms to the claim. -/
theorem chatmap_sends_location_separately :
    (handleSendMessage_payload "What is the temperature?"
        (some ⟨10, 70, 0, 80⟩)).location =
      some "TopLeft(10,70), BottomRight(0,80)" ∧
    (handleSendMessage_payload "What is the temperature?"
        (some ⟨10, 70, 0, 80⟩)).user_prompt = "What is the temperature?" ∧
    (handleSend_payload "What is the temperature?"
        (some ⟨0, 10, 70, 80⟩)).location = none ∧
    (handleSend_payload "What is the temperature?"
        (some ⟨0, 10, 70, 80⟩)).user_prompt =
      "What is the temperature?\nCoordinates: lat_min=0, lat_max=10, lon_min=70, lon_max=80" := by
  refine ⟨rfl, rfl, rfl, rfl⟩

/-! ## Plan extraction: decimal numerals -/

/-- Is the character a decimal digit? -/
def isDigitChar (c : Char) : Bool :=
  48 ≤ c.toNat && c.toNat ≤ 57

/-- The digit character for a value below ten. -/
def digitChar (d : Nat) : Char := Char.ofNat (48 + d)

/-- Decimal rendering of a natural number, most significant digit
first. -/
def natChars (n : Nat) : List Char :=
  if _h : n < 10 then [digitChar n]
  else natChars (n / 10) ++ [digitChar (n % 10)]
decreasing_by
  exact Nat.div_lt_self (by omega) (by omega)

/-- Decimal rendering of an integer. -/
def intChars (n : Int) : List Char :=
  if n < 0 then '-' :: natChars n.natAbs else natChars n.toNat

/-- The numeric value of a digit sequence. -/
def digitsVal (ds : List Char) : Nat :=
  ds.foldl (fun acc c => 10 * acc + (c.toNat - 48)) 0

/-- Split off the longest leading run of digit characters. -/
def takeDigits : List Char → List Char × List Char
| [] => ([], [])
| c :: cs =>
    if isDigitChar c then
      ((takeDigits cs).1.cons c, (takeDigits cs).2)
    else ([], c :: cs)

/-- Does the list not begin with a digit? -/
def notDigitStart : List Char → Prop
| [] => True
| c :: _ => isDigitChar c = false

theorem digitChar_toNat {d : Nat} (h : d < 10) : (digitChar d).toNat = 48 + d := by
  interval_cases d <;> rfl

theorem isDigitChar_digitChar {d : Nat} (h : d < 10) : isDigitChar (digitChar d) = true := by
  simp [isDigitChar, digitChar_toNat h]
  omega

theorem natChars_ne_nil (n : Nat) : natChars n ≠ [] := by
  rw [natChars]
  split <;> simp

theorem natChars_all_digits (n : Nat) : ∀ c ∈ natChars n, isDigitChar c = true := by
  induction n using Nat.strong_induction_on with
  | _ n ih =>
      rw [natChars]
      split
      · next h =>
          intro c hc
          simp only [List.mem_singleton] at hc
          rw [hc]
          exact isDigitChar_digitChar h
      · next h =>
          intro c hc
          rw [List.mem_append] at hc
          rcases hc with hc | hc
          · exact ih (n / 10) (Nat.div_lt_self (by omega) (by omega)) c hc
          · simp only [List.mem_singleton] at hc
            rw [hc]
            exact isDigitChar_digitChar (Nat.mod_lt n (by omega))

theorem digitsVal_append_digit (ds : List Char) (c : Char) :
    digitsVal (ds ++ [c]) = 10 * digitsVal ds + (c.toNat - 48) := by
  simp [digitsVal, List.foldl_append]

theorem digitsVal_natChars (n : Nat) : digitsVal (natChars n) = n := by
  induction n using Nat.strong_induction_on with
  | _ n ih =>
      rw [natChars]
      split
      · next h =>
          simp [digitsVal, digitChar_toNat h]
      · next h =>
          rw [digitsVal_append_digit,
            ih (n / 10) (Nat.div_lt_self (by omega) (by omega)),
            digitChar_toNat (Nat.mod_lt n (by omega))]
          omega

theorem takeDigits_spec (ds rest : List Char)
    (hd : ∀ c ∈ ds, isDigitChar c = true) (hr : notDigitStart rest) :
    takeDigits (ds ++ rest) = (ds, rest) := by
  induction ds with
  | nil =>
      cases rest with
      | nil => rfl
      | cons c cs =>
          simp only [notDigitStart] at hr
          simp [takeDigits, hr]
  | cons c cs ih =>
      have hc : isDigitChar c = true := hd c (List.mem_cons_self c cs)
      have ih' := ih (fun x hx => hd x (List.mem_cons_of_mem c hx))
      simp [takeDigits, hc, ih']

/-! ## Plan extraction: rendering JSON -/

mutual

def renderChars : Json → List Char
| .str s => '"' :: s.data ++ ['"']
| .num n => intChars n
| .bool true => ['t', 'r', 'u', 'e']
| .bool false => ['f', 'a', 'l', 's', 'e']
| .null => ['n', 'u', 'l', 'l']
| .arr xs => '[' :: renderElems xs ++ [']']
| .obj ms => '\x7b' :: renderMembers ms ++ ['\x7d']

def renderElems : JsonList → List Char
| .nil => []
| .cons j js => renderChars j ++ sepElems js

def sepElems : JsonList → List Char
| .nil => []
| .cons j js => ',' :: (renderChars j ++ sepElems js)

def renderKV (k : String) (v : Json) : List Char :=
  '"' :: k.data ++ '"' :: ':' :: renderChars v

def renderMembers : JsonObj → List Char
| .nil => []
| .cons k v ms => renderKV k v ++ sepMembers ms

def sepMembers : JsonObj → List Char
| .nil => []
| .cons k v ms => ',' :: (renderKV k v ++ sepMembers ms)

end

/-- The rendered text of a JSON value. -/
def renderString (v : Json) : String := String.mk (renderChars v)

/-! Node counts, used to bound the parser fuel. -/

mutual

def sizeV : Json → Nat
| .arr xs => sizeL xs + 1
| .obj ms => sizeO ms + 1
| _ => 1

def sizeL : JsonList → Nat
| .nil => 0
| .cons j js => sizeV j + sizeL js + 1

def sizeO : JsonObj → Nat
| .nil => 0
| .cons _ v ms => sizeV v + sizeO ms + 1

end

/-! Well-formedness: string payloads and object keys contain no double
quote, so that rendering and re-parsing are inverse. -/

mutual

def wfV : Json → Bool
| .str s => s.data.all (fun c => !(c == '"'))
| .num _ => true
| .bool _ => true
| .null => true
| .arr xs => wfL xs
| .obj ms => wfO ms

def wfL : JsonList → Bool
| .nil => true
| .cons j js => wfV j && wfL js

def wfO : JsonObj → Bool
| .nil => true
| .cons k v ms => k.data.all (fun c => !(c == '"')) && wfV v && wfO ms

end

/-! ## Plan extraction: the JSON parser -/

/-- Read string content up to the closing double quote. -/
def pStrAux : List Char → Option (List Char × List Char)
| [] => none
| c :: cs =>
    if c = '"' then some ([], cs)
    else (pStrAux cs).map (fun p => (c :: p.1, p.2))

/-- Parse a decimal integer literal. -/
def pNum : List Char → Option (Json × List Char)
| [] => none
| c :: cs =>
    if c = '-' then
      if (takeDigits cs).1 = [] then none
      else some (.num (-(digitsVal (takeDigits cs).1 : Int)), (takeDigits cs).2)
    else
      if (takeDigits (c :: cs)).1 = [] then none
      else some (.num ((digitsVal (takeDigits (c :: cs)).1 : Int)), (takeDigits (c :: cs)).2)

theorem pStrAux_spec (content rest : List Char)
    (h : ∀ c ∈ content, (c == '"') = false) :
    pStrAux (content ++ '"' :: rest) = some (content, rest) := by
  induction content with
  | nil => simp [pStrAux]
  | cons c cs ih =>
      have hc : (c == '"') = false := h c (List.mem_cons_self c cs)
      have hc' : ¬ c = '"' := by
        intro he
        rw [he] at hc
        simp at hc
      simp only [List.cons_append, pStrAux, if_neg hc', List.append_eq,
        ih (fun x hx => h x (List.mem_cons_of_mem c hx))]
      rfl

theorem natChars_head (m : Nat) :
    ∃ c cs, natChars m = c :: cs ∧ isDigitChar c = true := by
  cases h : natChars m with
  | nil => exact absurd h (natChars_ne_nil m)
  | cons c cs =>
      refine ⟨c, cs, rfl, natChars_all_digits m c ?_⟩
      rw [h]
      exact List.mem_cons_self c cs

theorem isDigitChar_ne_minus {c : Char} (h : isDigitChar c = true) : ¬ c = '-' := by
  intro he
  rw [he] at h
  simp [isDigitChar] at h

theorem pNum_natChars (m : Nat) (rest : List Char) (hr : notDigitStart rest) :
    pNum (natChars m ++ rest) = some (.num (m : Int), rest) := by
  obtain ⟨c, cs, hshape, hdig⟩ := natChars_head m
  have htd : takeDigits (natChars m ++ rest) = (natChars m, rest) :=
    takeDigits_spec (natChars m) rest (natChars_all_digits m) hr
  rw [hshape] at htd
  simp only [List.cons_append] at htd
  rw [hshape]
  simp only [List.cons_append, pNum, if_neg (isDigitChar_ne_minus hdig), htd]
  rw [if_neg (List.cons_ne_nil c cs)]
  rw [← hshape, digitsVal_natChars]

theorem pNum_intChars (n : Int) (rest : List Char) (hr : notDigitStart rest) :
    pNum (intChars n ++ rest) = some (.num n, rest) := by
  unfold intChars
  by_cases hn : n < 0
  · rw [if_pos hn]
    have htd : takeDigits (natChars n.natAbs ++ rest) = (natChars n.natAbs, rest) :=
      takeDigits_spec (natChars n.natAbs) rest (natChars_all_digits n.natAbs) hr
    simp only [List.cons_append, pNum, if_pos rfl, htd]
    rw [if_neg (natChars_ne_nil n.natAbs)]
    rw [digitsVal_natChars]
    have : -((n.natAbs : Int)) = n := by omega
    rw [this]
    simp
  · rw [if_neg hn]
    have hm := pNum_natChars n.toNat rest hr
    have : ((n.toNat : Int)) = n := by omega
    rw [this] at hm
    exact hm

mutual

def pVal : Nat → List Char → Option (Json × List Char)
| 0, _ => none
| fuel + 1, cs =>
  match cs with
  | [] => none
  | c :: rest =>
    if c = '"' then
      match pStrAux rest with
      | none => none
      | some p => some (.str (String.mk p.1), p.2)
    else if c = '[' then
      match rest with
      | [] => none
      | c' :: r =>
        if c' = ']' then some (.arr .nil, r)
        else
          match pElems fuel (c' :: r) with
          | none => none
          | some p => some (.arr p.1, p.2)
    else if c = '\x7b' then
      match rest with
      | [] => none
      | c' :: r =>
        if c' = '\x7d' then some (.obj .nil, r)
        else
          match pMembers fuel (c' :: r) with
          | none => none
          | some p => some (.obj p.1, p.2)
    else if c = 't' then
      match rest with
      | 'r' :: 'u' :: 'e' :: r => some (.bool true, r)
      | _ => none
    else if c = 'f' then
      match rest with
      | 'a' :: 'l' :: 's' :: 'e' :: r => some (.bool false, r)
      | _ => none
    else if c = 'n' then
      match rest with
      | 'u' :: 'l' :: 'l' :: r => some (.null, r)
      | _ => none
    else if c = '-' ∨ isDigitChar c then pNum (c :: rest)
    else none

def pElems : Nat → List Char → Option (JsonList × List Char)
| 0, _ => none
| fuel + 1, cs =>
  match pVal fuel cs with
  | none => none
  | some p =>
    match p.2 with
    | [] => none
    | c :: r =>
      if c = ',' then
        match pElems fuel r with
        | none => none
        | some q => some (.cons p.1 q.1, q.2)
      else if c = ']' then some (.cons p.1 .nil, r)
      else none

def pMembers : Nat → List Char → Option (JsonObj × List Char)
| 0, _ => none
| fuel + 1, cs =>
  match cs with
  | '"' :: cs' =>
    match pStrAux cs' with
    | none => none
    | some kp =>
      match kp.2 with
      | ':' :: r =>
        match pVal fuel r with
        | none => none
        | some vp =>
          match vp.2 with
          | [] => none
          | c :: r2 =>
            if c = ',' then
              match pMembers fuel r2 with
              | none => none
              | some q => some (.cons (String.mk kp.1) vp.1 q.1, q.2)
            else if c = '\x7d' then some (.cons (String.mk kp.1) vp.1 .nil, r2)
            else none
      | _ => none
  | _ => none

end

/-! Head-shape facts about rendered values. -/

theorem string_mk_data (s : String) : String.mk s.data = s := rfl

theorem intChars_head (n : Int) :
    ∃ c cs, intChars n = c :: cs ∧ (c = '-' ∨ isDigitChar c = true) := by
  unfold intChars
  split
  · exact ⟨'-', natChars n.natAbs, rfl, Or.inl rfl⟩
  · obtain ⟨c, cs, hshape, hdig⟩ := natChars_head n.toNat
    exact ⟨c, cs, hshape, Or.inr hdig⟩

theorem numHead_facts {c : Char} (h : c = '-' ∨ isDigitChar c = true) :
    ¬ c = '"' ∧ ¬ c = '[' ∧ ¬ c = '\x7b' ∧ ¬ c = 't' ∧ ¬ c = 'f' ∧
      ¬ c = 'n' ∧ ¬ c = ']' := by
  rcases h with h | h
  · subst h
    refine ⟨by decide, by decide, by decide, by decide, by decide, by decide, by decide⟩
  · have h48 : 48 ≤ c.toNat ∧ c.toNat ≤ 57 := by
      simpa [isDigitChar] using h
    refine ⟨?_, ?_, ?_, ?_, ?_, ?_, ?_⟩ <;>
      · intro he
        subst he
        revert h48
        decide

theorem renderChars_head (v : Json) :
    ∃ c cs, renderChars v = c :: cs ∧ ¬ c = ']' := by
  cases v with
  | str s => exact ⟨'"', s.data ++ ['"'], by simp [renderChars], by decide⟩
  | num n =>
      obtain ⟨c, cs, hshape, hd⟩ := intChars_head n
      exact ⟨c, cs, by simpa [renderChars] using hshape, (numHead_facts hd).2.2.2.2.2.2⟩
  | bool b => cases b with
      | true => exact ⟨'t', ['r', 'u', 'e'], by simp [renderChars], by decide⟩
      | false => exact ⟨'f', ['a', 'l', 's', 'e'], by simp [renderChars], by decide⟩
  | null => exact ⟨'n', ['u', 'l', 'l'], by simp [renderChars], by decide⟩
  | arr xs => exact ⟨'[', renderElems xs ++ [']'], by simp [renderChars], by decide⟩
  | obj ms => exact ⟨'\x7b', renderMembers ms ++ ['\x7d'], by simp [renderChars], by decide⟩

theorem sizeV_pos (v : Json) : 1 ≤ sizeV v := by
  cases v <;> simp [sizeV]

/-! Roundtrip: parsing a rendered value recovers it exactly. -/

theorem wf_str_all {s : String} (h : s.data.all (fun c => !(c == '"')) = true) :
    ∀ c ∈ s.data, (c == '"') = false := by
  intro c hc
  have h2 := List.all_eq_true.mp h c hc
  simpa using h2

theorem nds_of {c : Char} (cs : List Char) (h : isDigitChar c = false) :
    notDigitStart (c :: cs) := h

theorem nds_sep (js : JsonList) (rest : List Char) :
    notDigitStart (sepElems js ++ ']' :: rest) := by
  cases js with
  | nil =>
      simp only [sepElems, List.nil_append]
      exact nds_of rest (by decide)
  | cons j2 js2 =>
      simp only [sepElems, List.cons_append]
      exact nds_of _ (by decide)

theorem nds_sepM (ms : JsonObj) (rest : List Char) :
    notDigitStart (sepMembers ms ++ '\x7d' :: rest) := by
  cases ms with
  | nil =>
      simp only [sepMembers, List.nil_append]
      exact nds_of rest (by decide)
  | cons k2 v2 ms3 =>
      simp only [sepMembers, List.cons_append]
      exact nds_of _ (by decide)

/-- The parser–renderer roundtrip, all three syntactic classes at once,
by induction on the parser fuel. -/
theorem parse_render_fuel (fuel : Nat) :
    (∀ (v : Json) (rest : List Char), wfV v = true → sizeV v ≤ fuel →
      notDigitStart rest →
      pVal fuel (renderChars v ++ rest) = some (v, rest)) ∧
    (∀ (xs : JsonList) (rest : List Char), wfL xs = true → sizeL xs ≤ fuel →
      xs ≠ .nil →
      pElems fuel (renderElems xs ++ ']' :: rest) = some (xs, rest)) ∧
    (∀ (ms : JsonObj) (rest : List Char), wfO ms = true → sizeO ms ≤ fuel →
      ms ≠ .nil →
      pMembers fuel (renderMembers ms ++ '\x7d' :: rest) = some (ms, rest)) := by
  induction fuel with
  | zero =>
      refine ⟨?_, ?_, ?_⟩
      · intro v rest _ hsz _
        exact absurd (le_trans (sizeV_pos v) hsz) (by decide)
      · intro xs rest _ hsz hne
        cases xs with
        | nil => exact absurd rfl hne
        | cons j js =>
            exfalso
            have h2 := hsz
            simp only [sizeL] at h2
            omega
      · intro ms rest _ hsz hne
        cases ms with
        | nil => exact absurd rfl hne
        | cons k v ms2 =>
            exfalso
            have h2 := hsz
            simp only [sizeO] at h2
            omega
  | succ fuel ih =>
      obtain ⟨ihV, ihL, ihO⟩ := ih
      refine ⟨?_, ?_, ?_⟩
      · -- values
        intro v rest hwf hsz hr
        cases v with
        | str s =>
            have hall : ∀ c ∈ s.data, (c == '"') = false :=
              wf_str_all (by simpa [wfV] using hwf)
            have h1 : renderChars (.str s) ++ rest = '"' :: (s.data ++ '"' :: rest) := by
              simp [renderChars]
            rw [h1]
            simp only [pVal]
            rw [pStrAux_spec s.data rest hall]
            simp [string_mk_data]
        | num n =>
            obtain ⟨c, cs, hshape, hd⟩ := intChars_head n
            have hfacts := numHead_facts hd
            have h1 : renderChars (.num n) ++ rest = c :: (cs ++ rest) := by
              simp [renderChars, hshape]
            rw [h1]
            simp only [pVal]
            rw [if_neg hfacts.1, if_neg hfacts.2.1, if_neg hfacts.2.2.1,
              if_neg hfacts.2.2.2.1, if_neg hfacts.2.2.2.2.1,
              if_neg hfacts.2.2.2.2.2.1, if_pos hd]
            rw [← List.cons_append, ← hshape]
            exact pNum_intChars n rest hr
        | bool b =>
            cases b with
            | true =>
                have h1 : renderChars (.bool true) ++ rest
                    = 't' :: 'r' :: 'u' :: 'e' :: rest := by
                  simp [renderChars]
                rw [h1]
                simp [pVal]
            | false =>
                have h1 : renderChars (.bool false) ++ rest
                    = 'f' :: 'a' :: 'l' :: 's' :: 'e' :: rest := by
                  simp [renderChars]
                rw [h1]
                simp [pVal]
        | null =>
            have h1 : renderChars .null ++ rest = 'n' :: 'u' :: 'l' :: 'l' :: rest := by
              simp [renderChars]
            rw [h1]
            simp [pVal]
        | arr xs =>
            cases xs with
            | nil =>
                have h1 : renderChars (.arr .nil) ++ rest = '[' :: ']' :: rest := by
                  simp [renderChars, renderElems]
                rw [h1]
                simp [pVal]
            | cons j js =>
                obtain ⟨c0, cs0, hshape, hne0⟩ := renderChars_head j
                have hwf' : wfL (.cons j js) = true := by simpa [wfV] using hwf
                have hszL : sizeL (.cons j js) ≤ fuel := by
                  have h2 := hsz
                  simp only [sizeV] at h2
                  omega
                have h1 : renderChars (.arr (.cons j js)) ++ rest
                    = '[' :: (renderElems (.cons j js) ++ ']' :: rest) := by
                  simp [renderChars]
                have hE : renderElems (.cons j js) ++ ']' :: rest
                    = c0 :: (cs0 ++ (sepElems js ++ ']' :: rest)) := by
                  simp [renderElems, hshape]
                rw [h1, hE]
                simp only [pVal]
                rw [if_neg (by decide : ¬ ('[' : Char) = '"'), if_pos trivial,
                  if_neg hne0]
                rw [← hE, ihL (.cons j js) rest hwf' hszL (by simp)]
        | obj ms =>
            cases ms with
            | nil =>
                have h1 : renderChars (.obj .nil) ++ rest = '\x7b' :: '\x7d' :: rest := by
                  simp [renderChars, renderMembers]
                rw [h1]
                simp [pVal]
            | cons k v ms2 =>
                have hwf' : wfO (.cons k v ms2) = true := by simpa [wfV] using hwf
                have hszO : sizeO (.cons k v ms2) ≤ fuel := by
                  have h2 := hsz
                  simp only [sizeV] at h2
                  omega
                have h1 : renderChars (.obj (.cons k v ms2)) ++ rest
                    = '\x7b' :: (renderMembers (.cons k v ms2) ++ '\x7d' :: rest) := by
                  simp [renderChars]
                have hM : renderMembers (.cons k v ms2) ++ '\x7d' :: rest
                    = '"' :: ((k.data ++ '"' :: ':' :: renderChars v) ++
                        (sepMembers ms2 ++ '\x7d' :: rest)) := by
                  simp [renderMembers, renderKV]
                rw [h1, hM]
                simp only [pVal]
                rw [if_neg (by decide : ¬ ('\x7b' : Char) = '"'),
                  if_neg (by decide : ¬ ('\x7b' : Char) = '['), if_pos trivial,
                  if_neg (by decide : ¬ ('"' : Char) = '\x7d')]
                rw [← hM, ihO (.cons k v ms2) rest hwf' hszO (by simp)]
      · -- element lists
        intro xs rest hwf hsz hne
        cases xs with
        | nil => exact absurd rfl hne
        | cons j js =>
            have hwf' : wfV j = true ∧ wfL js = true := by
              simpa [wfL, Bool.and_eq_true] using hwf
            have hszj : sizeV j ≤ fuel := by
              have h2 := hsz
              simp only [sizeL] at h2
              omega
            have h1 : renderElems (.cons j js) ++ ']' :: rest
                = renderChars j ++ (sepElems js ++ ']' :: rest) := by
              simp [renderElems]
            rw [h1]
            simp only [pElems]
            rw [ihV j (sepElems js ++ ']' :: rest) hwf'.1 hszj (nds_sep js rest)]
            cases js with
            | nil => simp [sepElems]
            | cons j2 js2 =>
                have h2 : sepElems (.cons j2 js2) ++ ']' :: rest
                    = ',' :: (renderElems (.cons j2 js2) ++ ']' :: rest) := by
                  simp [sepElems, renderElems]
                have hszt : sizeL (.cons j2 js2) ≤ fuel := by
                  have h3 := hsz
                  simp only [sizeL] at h3 ⊢
                  have h4 := sizeV_pos j
                  omega
                have hIH := ihL (.cons j2 js2) rest hwf'.2 hszt (by simp)
                simp [h2, hIH]
      · -- object members
        intro ms rest hwf hsz hne
        cases ms with
        | nil => exact absurd rfl hne
        | cons k v ms2 =>
            have hwf' : k.data.all (fun c => !(c == '"')) = true ∧
                wfV v = true ∧ wfO ms2 = true := by
              simpa [wfO, Bool.and_eq_true, and_assoc] using hwf
            have hszv : sizeV v ≤ fuel := by
              have h2 := hsz
              simp only [sizeO] at h2
              omega
            have h1 : renderMembers (.cons k v ms2) ++ '\x7d' :: rest
                = '"' :: (k.data ++ '"' :: (':' :: (renderChars v ++
                    (sepMembers ms2 ++ '\x7d' :: rest)))) := by
              simp [renderMembers, renderKV]
            rw [h1]
            simp only [pMembers]
            rw [pStrAux_spec k.data _ (wf_str_all hwf'.1)]
            have hpv := ihV v (sepMembers ms2 ++ '\x7d' :: rest) hwf'.2.1 hszv
              (nds_sepM ms2 rest)
            cases ms2 with
            | nil =>
                simp only [sepMembers, List.nil_append] at hpv
                simp [sepMembers, hpv, string_mk_data]
            | cons k2 v2 ms3 =>
                have h2 : sepMembers (.cons k2 v2 ms3) ++ '\x7d' :: rest
                    = ',' :: (renderMembers (.cons k2 v2 ms3) ++ '\x7d' :: rest) := by
                  simp [sepMembers, renderMembers]
                have hszt : sizeO (.cons k2 v2 ms3) ≤ fuel := by
                  have h3 := hsz
                  simp only [sizeO] at h3 ⊢
                  have h4 := sizeV_pos v
                  omega
                have hIH := ihO (.cons k2 v2 ms3) rest hwf'.2.2 hszt (by simp)
                rw [h2] at hpv ⊢
                simp [hpv, hIH, string_mk_data]
/-! The node count of a value is bounded by its rendered length, so the
rendered length is always enough parser fuel. -/

theorem intChars_ne_nil (n : Int) : intChars n ≠ [] := by
  unfold intChars
  split
  · simp
  · exact natChars_ne_nil _

theorem size_le_len_aux (n : Nat) :
    (∀ v : Json, sizeV v ≤ n → sizeV v ≤ (renderChars v).length) ∧
    (∀ xs : JsonList, sizeL xs ≤ n → sizeL xs ≤ (sepElems xs).length) ∧
    (∀ ms : JsonObj, sizeO ms ≤ n → sizeO ms ≤ (sepMembers ms).length) := by
  induction n with
  | zero =>
      refine ⟨?_, ?_, ?_⟩
      · intro v hv
        exact absurd (le_trans (sizeV_pos v) hv) (by decide)
      · intro xs _
        cases xs with
        | nil => simp [sizeL]
        | cons j js =>
            next h =>
              exfalso
              simp only [sizeL] at h
              omega
      · intro ms _
        cases ms with
        | nil => simp [sizeO]
        | cons k v ms2 =>
            next h =>
              exfalso
              simp only [sizeO] at h
              omega
  | succ n ih =>
      obtain ⟨ihV, ihL, ihO⟩ := ih
      refine ⟨?_, ?_, ?_⟩
      · intro v hv
        cases v with
        | str s => simp [sizeV, renderChars]
        | num n =>
            simp only [sizeV, renderChars]
            exact List.length_pos.mpr (intChars_ne_nil n)
        | bool b => cases b <;> simp [sizeV, renderChars]
        | null => simp [sizeV, renderChars]
        | arr xs =>
            cases xs with
            | nil => simp [sizeV, sizeL, renderChars, renderElems]
            | cons j js =>
                have hszj : sizeV j ≤ n ∧ sizeL js ≤ n := by
                  simp only [sizeV, sizeL] at hv
                  constructor <;> omega
                have h1 := ihV j hszj.1
                have h2 := ihL js hszj.2
                simp only [sizeV, sizeL, renderChars, renderElems,
                  List.length_cons, List.length_append] at h1 h2 ⊢
                omega
        | obj ms =>
            cases ms with
            | nil => simp [sizeV, sizeO, renderChars, renderMembers]
            | cons k v ms2 =>
                have hszv : sizeV v ≤ n ∧ sizeO ms2 ≤ n := by
                  simp only [sizeV, sizeO] at hv
                  constructor <;> omega
                have h1 := ihV v hszv.1
                have h2 := ihO ms2 hszv.2
                simp only [sizeV, sizeO, renderChars, renderMembers, renderKV,
                  List.length_cons, List.length_append] at h1 h2 ⊢
                omega
      · intro xs hxs
        cases xs with
        | nil => simp [sizeL]
        | cons j js =>
            have hszj : sizeV j ≤ n ∧ sizeL js ≤ n := by
              simp only [sizeL] at hxs
              constructor <;> omega
            have h1 := ihV j hszj.1
            have h2 := ihL js hszj.2
            simp only [sizeL, sepElems, List.length_cons, List.length_append] at h2 ⊢
            omega
      · intro ms hms
        cases ms with
        | nil => simp [sizeO]
        | cons k v ms2 =>
            have hszv : sizeV v ≤ n ∧ sizeO ms2 ≤ n := by
              simp only [sizeO] at hms
              constructor <;> omega
            have h1 := ihV v hszv.1
            have h2 := ihO ms2 hszv.2
            simp only [sizeO, sepMembers, renderKV, List.length_cons,
              List.length_append] at h2 ⊢
            omega


theorem sizeV_le_len (v : Json) : sizeV v ≤ (renderChars v).length :=
  (size_le_len_aux (sizeV v)).1 v (le_refl _)

/-! ## Plan extraction: locating the first balanced JSON substring

Modelled from the spec (§4.1): scan the text for the first syntactically
balanced JSON array or object substring — bracket matching tolerant of
surrounding prose and fencing, with brackets inside string literals not
counted. `findStart` skips prose up to the first opening bracket;
`takeBalAux` walks the text tracking bracket depth and an in-string
flag, returning the prefix up to the bracket that closes the outermost
one.
-/

def takeBalAux : Nat → Bool → List Char → Option (List Char)
| _, _, [] => none
| d, false, c :: cs =>
    if c = '[' ∨ c = '\x7b' then (takeBalAux (d + 1) false cs).map (fun t => c :: t)
    else if c = ']' ∨ c = '\x7d' then
      if d ≤ 1 then some [c]
      else (takeBalAux (d - 1) false cs).map (fun t => c :: t)
    else if c = '"' then (takeBalAux d true cs).map (fun t => c :: t)
    else (takeBalAux d false cs).map (fun t => c :: t)
| d, true, c :: cs =>
    if c = '"' then (takeBalAux d false cs).map (fun t => c :: t)
    else (takeBalAux d true cs).map (fun t => c :: t)

/-- Skip to the first opening bracket or brace. -/
def findStart : List Char → Option (List Char)
| [] => none
| c :: cs => if c = '[' ∨ c = '\x7b' then some (c :: cs) else findStart cs

/-- The first balanced bracketed substring of the text, if any. -/
def scanBalanced (cs : List Char) : Option (List Char) :=
  (findStart cs).bind (takeBalAux 0 false)

/-! Single-step reductions for the scanner. -/

theorem tba_open {c : Char} (h : c = '[' ∨ c = '\x7b') (d : Nat) (cs : List Char) :
    takeBalAux d false (c :: cs) = (takeBalAux (d + 1) false cs).map (fun t => c :: t) := by
  rcases h with h | h <;> subst h <;> simp [takeBalAux]

theorem tba_close_done {c : Char} (h : c = ']' ∨ c = '\x7d') (cs : List Char) :
    takeBalAux 1 false (c :: cs) = some [c] := by
  rcases h with h | h <;> subst h <;> simp [takeBalAux]

theorem tba_close_go {c : Char} (h : c = ']' ∨ c = '\x7d') {d : Nat} (hd : 2 ≤ d)
    (cs : List Char) :
    takeBalAux d false (c :: cs) = (takeBalAux (d - 1) false cs).map (fun t => c :: t) := by
  have hd1 : ¬ d ≤ 1 := by omega
  rcases h with h | h <;> subst h <;> simp [takeBalAux, hd1]

theorem tba_quote (d : Nat) (cs : List Char) :
    takeBalAux d false ('"' :: cs) = (takeBalAux d true cs).map (fun t => '"' :: t) := by
  simp [takeBalAux]

/-- An ordinary character: not a bracket, brace, or double quote. -/
def OrdChar (c : Char) : Prop :=
  ¬ c = '[' ∧ ¬ c = '\x7b' ∧ ¬ c = ']' ∧ ¬ c = '\x7d' ∧ ¬ c = '"'

instance (c : Char) : Decidable (OrdChar c) := by
  unfold OrdChar
  infer_instance

theorem tba_ord {c : Char} (h : OrdChar c) (d : Nat) (cs : List Char) :
    takeBalAux d false (c :: cs) = (takeBalAux d false cs).map (fun t => c :: t) := by
  obtain ⟨h1, h2, h3, h4, h5⟩ := h
  simp [takeBalAux, h1, h2, h3, h4, h5]

theorem tba_instr_quote (d : Nat) (cs : List Char) :
    takeBalAux d true ('"' :: cs) = (takeBalAux d false cs).map (fun t => '"' :: t) := by
  simp [takeBalAux]

theorem tba_instr_ord {c : Char} (h : ¬ c = '"') (d : Nat) (cs : List Char) :
    takeBalAux d true (c :: cs) = (takeBalAux d true cs).map (fun t => c :: t) := by
  simp [takeBalAux, h]

/-! Neutral chunks: scanning passes over them without changing depth or
triggering the close of the enclosing bracket. -/

def Neutral (cs : List Char) : Prop :=
  ∀ d rest, 1 ≤ d →
    takeBalAux d false (cs ++ rest) = (takeBalAux d false rest).map (fun t => cs ++ t)

def NeutralIn (cs : List Char) : Prop :=
  ∀ d rest,
    takeBalAux d true (cs ++ rest) = (takeBalAux d true rest).map (fun t => cs ++ t)

theorem neutral_nil : Neutral [] := by
  intro d rest _
  simp

theorem neutral_append {a b : List Char} (ha : Neutral a) (hb : Neutral b) :
    Neutral (a ++ b) := by
  intro d rest hd
  rw [List.append_assoc, ha d (b ++ rest) hd, hb d rest hd]
  cases takeBalAux d false rest <;> simp

theorem neutralIn_no_quote (cs : List Char) (h : ∀ c ∈ cs, ¬ c = '"') :
    NeutralIn cs := by
  induction cs with
  | nil =>
      intro d rest
      simp
  | cons c cs ih =>
      intro d rest
      rw [List.cons_append, tba_instr_ord (h c (List.mem_cons_self c cs)) d (cs ++ rest),
        ih (fun x hx => h x (List.mem_cons_of_mem c hx)) d rest]
      cases takeBalAux d true rest <;> simp

theorem neutral_of_ord (cs : List Char) (h : ∀ c ∈ cs, OrdChar c) : Neutral cs := by
  induction cs with
  | nil => exact neutral_nil
  | cons c cs ih =>
      intro d rest hd
      rw [List.cons_append, tba_ord (h c (List.mem_cons_self c cs)) d (cs ++ rest),
        ih (fun x hx => h x (List.mem_cons_of_mem c hx)) d rest hd]
      cases takeBalAux d false rest <;> simp

theorem neutral_string (content : List Char) (h : ∀ c ∈ content, ¬ c = '"') :
    Neutral ('"' :: content ++ ['"']) := by
  intro d rest hd
  have h1 : ('"' :: content ++ ['"']) ++ rest = '"' :: (content ++ '"' :: rest) := by
    simp
  rw [h1, tba_quote, neutralIn_no_quote content h d ('"' :: rest), tba_instr_quote]
  cases takeBalAux d false rest <;> simp

theorem neutral_wrap {inner : List Char} (hin : Neutral inner)
    {o c : Char} (ho : o = '[' ∨ o = '\x7b') (hc : c = ']' ∨ c = '\x7d') :
    Neutral (o :: inner ++ [c]) := by
  intro d rest hd
  have h1 : (o :: inner ++ [c]) ++ rest = o :: (inner ++ c :: rest) := by simp
  rw [h1, tba_open ho, hin (d + 1) (c :: rest) (by omega),
    tba_close_go hc (by omega) rest]
  have h2 : d + 1 - 1 = d := by omega
  rw [h2]
  cases takeBalAux d false rest <;> simp

/-! Rendered well-formed values are neutral chunks. -/

theorem ordChar_of_numChar {c : Char} (h : c = '-' ∨ isDigitChar c = true) :
    OrdChar c := by
  rcases h with h | h
  · subst h
    exact (by decide)
  · have h48 : 48 ≤ c.toNat ∧ c.toNat ≤ 57 := by
      simpa [isDigitChar] using h
    refine ⟨?_, ?_, ?_, ?_, ?_⟩ <;>
      · intro he
        subst he
        revert h48
        decide

theorem intChars_all_numChar (n : Int) :
    ∀ c ∈ intChars n, c = '-' ∨ isDigitChar c = true := by
  unfold intChars
  split
  · intro c hc
    rcases List.mem_cons.mp hc with h | h
    · exact Or.inl h
    · exact Or.inr (natChars_all_digits _ c h)
  · intro c hc
    exact Or.inr (natChars_all_digits _ c hc)

theorem wf_no_quote {l : List Char} (h : l.all (fun c => !(c == '"')) = true) :
    ∀ c ∈ l, ¬ c = '"' := by
  intro c hc he
  have h2 := List.all_eq_true.mp h c hc
  subst he
  simp at h2

theorem neutral_render_aux (n : Nat) :
    (∀ v : Json, wfV v = true → sizeV v ≤ n → Neutral (renderChars v)) ∧
    (∀ xs : JsonList, wfL xs = true → sizeL xs ≤ n → Neutral (sepElems xs)) ∧
    (∀ ms : JsonObj, wfO ms = true → sizeO ms ≤ n → Neutral (sepMembers ms)) := by
  induction n with
  | zero =>
      refine ⟨?_, ?_, ?_⟩
      · intro v _ hsz
        exact absurd (le_trans (sizeV_pos v) hsz) (by decide)
      · intro xs _ hsz
        cases xs with
        | nil =>
            have h1 : sepElems .nil = [] := by simp [sepElems]
            rw [h1]
            exact neutral_nil
        | cons j js =>
            exfalso
            simp only [sizeL] at hsz
            omega
      · intro ms _ hsz
        cases ms with
        | nil =>
            have h1 : sepMembers .nil = [] := by simp [sepMembers]
            rw [h1]
            exact neutral_nil
        | cons k v ms2 =>
            exfalso
            simp only [sizeO] at hsz
            omega
  | succ n ih =>
      obtain ⟨ihV, ihL, ihO⟩ := ih
      have hkv : ∀ (k : String) (v : Json), k.data.all (fun c => !(c == '"')) = true →
          wfV v = true → sizeV v ≤ n → Neutral (renderKV k v) := by
        intro k v hk hv hsz
        have h1 : renderKV k v = ('"' :: k.data ++ ['"']) ++ ([':'] ++ renderChars v) := by
          simp [renderKV]
        rw [h1]
        exact neutral_append (neutral_string k.data (wf_no_quote hk))
          (neutral_append (neutral_of_ord [':'] (by decide)) (ihV v hv hsz))
      refine ⟨?_, ?_, ?_⟩
      · intro v hwf hsz
        cases v with
        | str s =>
            have h1 : renderChars (.str s) = '"' :: s.data ++ ['"'] := by
              simp [renderChars]
            rw [h1]
            exact neutral_string s.data (wf_no_quote (by simpa [wfV] using hwf))
        | num m =>
            have h1 : renderChars (.num m) = intChars m := by simp [renderChars]
            rw [h1]
            exact neutral_of_ord _ (fun c hc => ordChar_of_numChar (intChars_all_numChar m c hc))
        | bool b =>
            cases b with
            | true =>
                have h1 : renderChars (.bool true) = ['t', 'r', 'u', 'e'] := by
                  simp [renderChars]
                rw [h1]
                exact neutral_of_ord _ (by decide)
            | false =>
                have h1 : renderChars (.bool false) = ['f', 'a', 'l', 's', 'e'] := by
                  simp [renderChars]
                rw [h1]
                exact neutral_of_ord _ (by decide)
        | null =>
            have h1 : renderChars .null = ['n', 'u', 'l', 'l'] := by
              simp [renderChars]
            rw [h1]
            exact neutral_of_ord _ (by decide)
        | arr xs =>
            have h1 : renderChars (.arr xs) = '[' :: renderElems xs ++ [']'] := by
              simp [renderChars]
            rw [h1]
            refine neutral_wrap ?_ (Or.inl rfl) (Or.inl rfl)
            cases xs with
            | nil =>
                have h2 : renderElems .nil = [] := by simp [renderElems]
                rw [h2]
                exact neutral_nil
            | cons j js =>
                have hwf' : wfV j = true ∧ wfL js = true := by
                  simpa [wfV, wfL, Bool.and_eq_true] using hwf
                have hsz' : sizeV j ≤ n ∧ sizeL js ≤ n := by
                  simp only [sizeV, sizeL] at hsz
                  constructor <;> omega
                have h2 : renderElems (.cons j js) = renderChars j ++ sepElems js := by
                  simp [renderElems]
                rw [h2]
                exact neutral_append (ihV j hwf'.1 hsz'.1) (ihL js hwf'.2 hsz'.2)
        | obj ms =>
            have h1 : renderChars (.obj ms) = '\x7b' :: renderMembers ms ++ ['\x7d'] := by
              simp [renderChars]
            rw [h1]
            refine neutral_wrap ?_ (Or.inr rfl) (Or.inr rfl)
            cases ms with
            | nil =>
                have h2 : renderMembers .nil = [] := by simp [renderMembers]
                rw [h2]
                exact neutral_nil
            | cons k v ms2 =>
                have hwf' : k.data.all (fun c => !(c == '"')) = true ∧
                    wfV v = true ∧ wfO ms2 = true := by
                  simpa [wfV, wfO, Bool.and_eq_true, and_assoc] using hwf
                have hsz' : sizeV v ≤ n ∧ sizeO ms2 ≤ n := by
                  simp only [sizeV, sizeO] at hsz
                  constructor <;> omega
                have h2 : renderMembers (.cons k v ms2)
                    = renderKV k v ++ sepMembers ms2 := by
                  simp [renderMembers]
                rw [h2]
                exact neutral_append (hkv k v hwf'.1 hwf'.2.1 hsz'.1)
                  (ihO ms2 hwf'.2.2 hsz'.2)
      · intro xs hwf hsz
        cases xs with
        | nil =>
            have h1 : sepElems .nil = [] := by simp [sepElems]
            rw [h1]
            exact neutral_nil
        | cons j js =>
            have hwf' : wfV j = true ∧ wfL js = true := by
              simpa [wfL, Bool.and_eq_true] using hwf
            have hsz' : sizeV j ≤ n ∧ sizeL js ≤ n := by
              simp only [sizeL] at hsz
              constructor <;> omega
            have h1 : sepElems (.cons j js) = [','] ++ (renderChars j ++ sepElems js) := by
              simp [sepElems]
            rw [h1]
            exact neutral_append (neutral_of_ord [','] (by decide))
              (neutral_append (ihV j hwf'.1 hsz'.1) (ihL js hwf'.2 hsz'.2))
      · intro ms hwf hsz
        cases ms with
        | nil =>
            have h1 : sepMembers .nil = [] := by simp [sepMembers]
            rw [h1]
            exact neutral_nil
        | cons k v ms2 =>
            have hwf' : k.data.all (fun c => !(c == '"')) = true ∧
                wfV v = true ∧ wfO ms2 = true := by
              simpa [wfO, Bool.and_eq_true, and_assoc] using hwf
            have hsz' : sizeV v ≤ n ∧ sizeO ms2 ≤ n := by
              simp only [sizeO] at hsz
              constructor <;> omega
            have h1 : sepMembers (.cons k v ms2)
                = [','] ++ (renderKV k v ++ sepMembers ms2) := by
              simp [sepMembers]
            rw [h1]
            exact neutral_append (neutral_of_ord [','] (by decide))
              (neutral_append (hkv k v hwf'.1 hwf'.2.1 hsz'.1)
                (ihO ms2 hwf'.2.2 hsz'.2))

theorem neutral_render (v : Json) (hwf : wfV v = true) : Neutral (renderChars v) :=
  (neutral_render_aux (sizeV v)).1 v hwf (le_refl _)

theorem neutral_sepElems (xs : JsonList) (hwf : wfL xs = true) : Neutral (sepElems xs) :=
  (neutral_render_aux (sizeL xs)).2.1 xs hwf (le_refl _)

theorem neutral_sepMembers (ms : JsonObj) (hwf : wfO ms = true) : Neutral (sepMembers ms) :=
  (neutral_render_aux (sizeO ms)).2.2 ms hwf (le_refl _)

theorem neutral_renderElems (xs : JsonList) (hwf : wfL xs = true) :
    Neutral (renderElems xs) := by
  cases xs with
  | nil =>
      have h1 : renderElems .nil = [] := by simp [renderElems]
      rw [h1]
      exact neutral_nil
  | cons j js =>
      have hwf' : wfV j = true ∧ wfL js = true := by
        simpa [wfL, Bool.and_eq_true] using hwf
      have h1 : renderElems (.cons j js) = renderChars j ++ sepElems js := by
        simp [renderElems]
      rw [h1]
      exact neutral_append (neutral_render j hwf'.1) (neutral_sepElems js hwf'.2)

theorem neutral_renderMembers (ms : JsonObj) (hwf : wfO ms = true) :
    Neutral (renderMembers ms) := by
  cases ms with
  | nil =>
      have h1 : renderMembers .nil = [] := by simp [renderMembers]
      rw [h1]
      exact neutral_nil
  | cons k v ms2 =>
      have hwf' : k.data.all (fun c => !(c == '"')) = true ∧
          wfV v = true ∧ wfO ms2 = true := by
        simpa [wfO, Bool.and_eq_true, and_assoc] using hwf
      have h1 : renderMembers (.cons k v ms2) = renderKV k v ++ sepMembers ms2 := by
        simp [renderMembers]
      have h2 : renderKV k v = ('"' :: k.data ++ ['"']) ++ ([':'] ++ renderChars v) := by
        simp [renderKV]
      rw [h1, h2]
      exact neutral_append
        (neutral_append (neutral_string k.data (wf_no_quote hwf'.1))
          (neutral_append (neutral_of_ord [':'] (by decide))
            (neutral_render v hwf'.2.1)))
        (neutral_sepMembers ms2 hwf'.2.2)

/-- A container value: a JSON array or object. -/
def IsContainer (v : Json) : Prop :=
  (∃ xs, v = .arr xs) ∨ (∃ ms, v = .obj ms)

/-- The scanner returns exactly the rendered container, whatever
follows it. -/
theorem tba_render_container (v : Json) (hwf : wfV v = true)
    (hc : IsContainer v) (rest : List Char) :
    takeBalAux 0 false (renderChars v ++ rest) = some (renderChars v) := by
  rcases hc with ⟨xs, rfl⟩ | ⟨ms, rfl⟩
  · have h1 : renderChars (.arr xs) ++ rest = '[' :: (renderElems xs ++ ']' :: rest) := by
      simp [renderChars]
    rw [h1, tba_open (Or.inl rfl),
      neutral_renderElems xs (by simpa [wfV] using hwf) 1 (']' :: rest) (le_refl 1),
      tba_close_done (Or.inl rfl)]
    simp [renderChars]
  · have h1 : renderChars (.obj ms) ++ rest
        = '\x7b' :: (renderMembers ms ++ '\x7d' :: rest) := by
      simp [renderChars]
    rw [h1, tba_open (Or.inr rfl),
      neutral_renderMembers ms (by simpa [wfV] using hwf) 1 ('\x7d' :: rest) (le_refl 1),
      tba_close_done (Or.inr rfl)]
    simp [renderChars]

/-! ## Plan extraction: the extractor and normalization

Modelled from the spec (§4.1, `extract_json_from_text` in
`backend/utils/queries.py`): locate the first balanced JSON array or
object substring in the possibly prose-wrapped model output, parse it,
and normalize the parsed value to a list of `{name, arguments}` call
objects, a bare object becoming a one-element list. A `none` result is
the `PlanExtractionError` outcome.
-/

/-- Parse a character list as one complete JSON value (its own length
is always sufficient parser fuel). -/
def parseJsonChars (cs : List Char) : Option Json :=
  match pVal cs.length cs with
  | some (v, []) => some v
  | _ => none

/-- The first balanced JSON substring of the text, parsed. -/
def extract_json_value (text : String) : Option Json :=
  (scanBalanced text.data).bind parseJsonChars

/-- Object field lookup. -/
def lookupObj (k : String) : JsonObj → Option Json
| .nil => none
| .cons k2 v ms => if k2 = k then some v else lookupObj k ms

/-- Interpret one JSON object as a `{name, arguments}` call. -/
def toCall : Json → Option RawCall
| .obj ms =>
    match lookupObj "name" ms with
    | some (.str n) =>
        some ⟨n, match lookupObj "arguments" ms with
                 | some (.obj args) => args.toList
                 | _ => []⟩
    | _ => none
| _ => none

/-- Interpret every element of a JSON list as a call. -/
def toCallList : JsonList → Option (List RawCall)
| .nil => some []
| .cons j js =>
    match toCall j, toCallList js with
    | some c, some cs => some (c :: cs)
    | _, _ => none

/-- Normalize a parsed JSON value to a call list; a bare object is a
one-element list. -/
def normalizeCalls : Json → Option (List RawCall)
| .arr xs => toCallList xs
| .obj ms => (toCall (.obj ms)).map (fun c => [c])
| _ => none

/-- The Plan Extractor: first balanced JSON substring, parsed and
normalized; `none` signals `PlanExtractionError`. -/
def extract_json_from_text (text : String) : Option (List RawCall) :=
  (extract_json_value text).bind normalizeCalls

/-- The canonical JSON object for an argument mapping. -/
def jsonObjOf : List (String × Json) → JsonObj
| [] => .nil
| (k, v) :: ps => .cons k v (jsonObjOf ps)

/-- The canonical JSON list for a value list. -/
def jsonListOf : List Json → JsonList
| [] => .nil
| j :: js => .cons j (jsonListOf js)

/-- The canonical `{name, arguments}` JSON object of a call. -/
def callJson (c : RawCall) : Json :=
  .obj (.cons "name" (.str c.name)
    (.cons "arguments" (.obj (jsonObjOf c.arguments)) .nil))

/-- The canonical JSON array of a call list. -/
def callsJson (cs : List RawCall) : Json :=
  .arr (jsonListOf (cs.map callJson))

theorem jsonObjOf_toList (l : List (String × Json)) : (jsonObjOf l).toList = l := by
  induction l with
  | nil => rfl
  | cons p ps ih =>
      cases p
      simp [jsonObjOf, JsonObj.toList, ih]

theorem toCall_callJson (c : RawCall) : toCall (callJson c) = some c := by
  simp [toCall, callJson, lookupObj, jsonObjOf_toList]

theorem toCallList_map (cs : List RawCall) :
    toCallList (jsonListOf (cs.map callJson)) = some cs := by
  induction cs with
  | nil => rfl
  | cons c cs ih =>
      simp [jsonListOf, toCallList, toCall_callJson, ih]

theorem normalizeCalls_callsJson (cs : List RawCall) :
    normalizeCalls (callsJson cs) = some cs := by
  simp [normalizeCalls, callsJson, toCallList_map]

/-! The scan-then-parse roundtrip. -/

theorem findStart_skip (p : List Char)
    (h : ∀ c ∈ p, ¬ c = '[' ∧ ¬ c = '\x7b') (t : List Char) :
    findStart (p ++ t) = findStart t := by
  induction p with
  | nil => simp
  | cons c cs ih =>
      have hc := h c (List.mem_cons_self c cs)
      have hcond : ¬ (c = '[' ∨ c = '\x7b') := by
        rintro (h1 | h1)
        exacts [hc.1 h1, hc.2 h1]
      simp [findStart, hcond, ih (fun x hx => h x (List.mem_cons_of_mem c hx))]

theorem findStart_none (p : List Char)
    (h : ∀ c ∈ p, ¬ c = '[' ∧ ¬ c = '\x7b') : findStart p = none := by
  have h2 := findStart_skip p h []
  simpa [findStart] using h2

theorem findStart_render (v : Json) (hc : IsContainer v) (t : List Char) :
    findStart (renderChars v ++ t) = some (renderChars v ++ t) := by
  rcases hc with ⟨xs, rfl⟩ | ⟨ms, rfl⟩
  · have h1 : renderChars (.arr xs) ++ t = '[' :: (renderElems xs ++ ']' :: t) := by
      simp [renderChars]
    rw [h1]
    simp [findStart]
  · have h1 : renderChars (.obj ms) ++ t
        = '\x7b' :: (renderMembers ms ++ '\x7d' :: t) := by
      simp [renderChars]
    rw [h1]
    simp [findStart]

theorem parseJsonChars_render (v : Json) (hwf : wfV v = true) :
    parseJsonChars (renderChars v) = some v := by
  have h1 := (parse_render_fuel (renderChars v).length).1 v [] hwf (sizeV_le_len v)
    trivial
  rw [List.append_nil] at h1
  simp [parseJsonChars, h1]

theorem extract_value_roundtrip (p1 p2 : String) (v : Json)
    (hwf : wfV v = true) (hc : IsContainer v)
    (hp : ∀ c ∈ p1.data, ¬ c = '[' ∧ ¬ c = '\x7b') :
    extract_json_value (p1 ++ renderString v ++ p2) = some v := by
  have hdata : (p1 ++ renderString v ++ p2).data
      = p1.data ++ (renderChars v ++ p2.data) := by
    simp [renderString, String.data_append]
  unfold extract_json_value scanBalanced
  rw [hdata, findStart_skip p1.data hp _, findStart_render v hc p2.data]
  simp only [Option.some_bind]
  rw [tba_render_container v hwf hc p2.data]
  simp only [Option.some_bind]
  exact parseJsonChars_render v hwf

theorem normalizeCalls_callJson (c : RawCall) :
    normalizeCalls (callJson c) = some [c] := by
  have h1 := toCall_callJson c
  simp only [callJson] at h1 ⊢
  simp [normalizeCalls, h1]

/-- C5: the Plan Extractor recovers exactly the semantic content of the
first balanced JSON substring of the model output. For any bracket-free
prose prefix, any suffix, and any call list, extracting from the prose-
wrapped canonical rendering of the call array yields exactly those
`{name, arguments}` calls; a bare call object is normalized to a
one-element list; and a text in which no JSON substring can be located
yields `none` — the `PlanExtractionError` outcome — instead of a plan. -/
theorem extract_json_from_text_spec :
    (∀ (p1 p2 : String) (calls : List RawCall),
      wfV (callsJson calls) = true →
      (∀ c ∈ p1.data, ¬ c = '[' ∧ ¬ c = '\x7b') →
      extract_json_from_text (p1 ++ renderString (callsJson calls) ++ p2)
        = some calls) ∧
    (∀ (p1 p2 : String) (c : RawCall),
      wfV (callJson c) = true →
      (∀ ch ∈ p1.data, ¬ ch = '[' ∧ ¬ ch = '\x7b') →
      extract_json_from_text (p1 ++ renderString (callJson c) ++ p2)
        = some [c]) ∧
    (∀ t : String, (∀ ch ∈ t.data, ¬ ch = '[' ∧ ¬ ch = '\x7b') →
      extract_json_from_text t = none) := by
  refine ⟨?_, ?_, ?_⟩
  · intro p1 p2 calls hwf hp
    unfold extract_json_from_text
    rw [extract_value_roundtrip p1 p2 (callsJson calls) hwf
      (Or.inl ⟨jsonListOf (calls.map callJson), rfl⟩) hp]
    simp [normalizeCalls_callsJson]
  · intro p1 p2 c hwf hp
    unfold extract_json_from_text
    rw [extract_value_roundtrip p1 p2 (callJson c) hwf
      (Or.inr ⟨_, rfl⟩) hp]
    simp [normalizeCalls_callJson]
  · intro t h
    unfold extract_json_from_text extract_json_value scanBalanced
    rw [findStart_none t.data h]
    rfl

/-- Witness for C5: a one-call plan wrapped in prose roundtrips; the
hypotheses hold at the concrete input. -/
theorem extract_json_from_text_spec_witness :
    wfV (callsJson [⟨"get_profile_by_id", [("profile_id", Json.num 42)]⟩]) = true ∧
    (∀ c ∈ ("Here is the plan:\n" : String).data, ¬ c = '[' ∧ ¬ c = '\x7b') ∧
    extract_json_from_text ("Here is the plan:\n" ++
        renderString (callsJson [⟨"get_profile_by_id", [("profile_id", Json.num 42)]⟩]) ++
        " Done.")
      = some [⟨"get_profile_by_id", [("profile_id", Json.num 42)]⟩] :=
  ⟨by decide, by decide,
    extract_json_from_text_spec.1 "Here is the plan:\n" " Done."
      [⟨"get_profile_by_id", [("profile_id", Json.num 42)]⟩]
      (by decide) (by decide)⟩

end ArgoChat
